import Mathlib

/-!
Shallow embedding of `src/main.py` (Amadeus flight price trend finder).

HTTP calls are abstracted as explicit response values handed to each
function; uncaught Python exceptions are modelled with `Except String`;
caught-and-skipped exceptions inside the aggregation `try` block are
modelled with `Option`.  Prices travel as strings (as in the Amadeus
JSON) and `float(...)` on a decimal price literal is modelled by
`parseDecimal : String → Option ℚ` (`none` = the call raises).
-/

/-- `digitsToNat cs` is the numeric value of a digit string, as in
`int`/`float` parsing of the integral part. -/
def digitsToNat (cs : List Char) : Nat :=
  cs.foldl (fun n c => 10 * n + (c.toNat - 48)) 0

/-- Value of `[-] intPart . fracPart` as a rational (the digits of both
parts over the matching power of ten), provided both parts are digit
strings and at least one is nonempty. -/
def decimalValue (neg : Bool) (intPart fracPart : List Char) : Option ℚ :=
  if intPart.all Char.isDigit ∧ fracPart.all Char.isDigit ∧
      (intPart ≠ [] ∨ fracPart ≠ []) then
    some (mkRat
      (if neg then -(digitsToNat (intPart ++ fracPart) : Int)
       else (digitsToNat (intPart ++ fracPart) : Int))
      (10 ^ fracPart.length))
  else
    none

/-- Model of Python `float(s)` on the decimal price literals produced by
the API: optional sign, digits, optional fraction.  `none` means the
call raises `ValueError` (e.g. on `"x"`). -/
def parseDecimal (s : String) : Option ℚ :=
  let cs := s.data
  let signAndRest : Bool × List Char :=
    match cs with
    | '-' :: rest => (true, rest)
    | '+' :: rest => (false, rest)
    | _ => (false, cs)
  match (signAndRest.2.span (fun c => c != '.')) with
  | (ip, []) => decimalValue signAndRest.1 ip []
  | (ip, _dot :: fp) =>
      if fp.contains '.' then none else decimalValue signAndRest.1 ip fp

/-- One flight leg (`segments[i]` of an itinerary).  Only the fields the
modelled code paths read are kept. -/
structure Segment where
  carrierCode : String
  deriving DecidableEq, Repr

/-- One direction of travel; `segments = none` models a JSON object with
no `"segments"` key (the code reads it with default `[]`). -/
structure Itinerary where
  segments : Option (List Segment)
  deriving DecidableEq, Repr

/-- A flight offer.  `itineraries = none` models a missing
`"itineraries"` key (read with default `[{}]`); `priceTotal = none`
models a missing `"price"` or `"total"` key; `priceTotal = some s`
models `offer["price"]["total"] = s`. -/
structure Offer where
  itineraries : Option (List Itinerary)
  priceTotal : Option String
  deriving DecidableEq, Repr

/-- `offer.get("price", {}).get("total")` followed by `float(...)`:
`none` when the field is missing or the string does not parse. -/
def priceOf (o : Offer) : Option ℚ :=
  o.priceTotal.bind parseDecimal

/-- Association-list read, modelling Python `dict` lookup. -/
def cacheGet (cache : List (String × String)) (k : String) : Option String :=
  (cache.find? (fun p => p.1 == k)).map (fun p => p.2)

/-- Association-list write, modelling Python `dict` assignment. -/
def cacheSet : List (String × String) → String → String → List (String × String)
  | [], k, v => [(k, v)]
  | (k0, v0) :: rest, k, v =>
      if k0 == k then (k, v) :: rest else (k0, v0) :: cacheSet rest k v

/-- One record of the airlines reference-data response (`data[i]`). -/
structure Airline where
  businessName : Option String
  commonName : Option String
  deriving DecidableEq, Repr

/-- Outcome of one HTTP GET against a collaborator: a parsed 2xx body,
or any `requests.exceptions.RequestException` (network failure,
non-2xx raised by `raise_for_status`). -/
inductive HttpResult (α : Type) where
  | ok (val : α)
  | httpError
  deriving DecidableEq, Repr

/-- `airline.get("businessName") or airline.get("commonName", carrier_code)`:
Python `or` falls through on `None` and on the empty string. -/
def preferredAirlineName (a : Airline) (carrierCode : String) : String :=
  match a.businessName with
  | some bn => if bn = "" then a.commonName.getD carrierCode else bn
  | none => a.commonName.getD carrierCode

/-- `get_airline_name_from_api(token, carrier_code)` with the HTTP
response abstracted as `resp` and the global `airline_cache` passed
explicitly.  Returns `(returned name, cache afterwards, number of
network lookups issued)`. -/
def get_airline_name_from_api (resp : HttpResult (List Airline))
    (airline_cache : List (String × String)) (carrier_code : String) :
    String × List (String × String) × Nat :=
  if carrier_code = "" ∨ (cacheGet airline_cache carrier_code).isSome then
    ((cacheGet airline_cache carrier_code).getD carrier_code, airline_cache, 0)
  else
    match resp with
    | .httpError =>
        (carrier_code, airline_cache, 1)
    | .ok [] =>
        (carrier_code, cacheSet airline_cache carrier_code carrier_code, 1)
    | .ok (airline :: _) =>
        let airline_name := preferredAirlineName airline carrier_code
        (airline_name, cacheSet airline_cache carrier_code airline_name, 1)

/-- Two sequential resolver calls for the same code; the second call sees
the cache left by the first.  Returns both names and the total number of
network lookups issued. -/
def resolveTwice (resp1 resp2 : HttpResult (List Airline))
    (airline_cache : List (String × String)) (carrier_code : String) :
    String × String × Nat :=
  let r1 := get_airline_name_from_api resp1 airline_cache carrier_code
  let r2 := get_airline_name_from_api resp2 r1.2.1 carrier_code
  (r1.1, r2.1, r1.2.2 + r2.2.2)

/-- `offer.get("itineraries", [{}])[0]`: a missing key defaults to
`[{}]` whose first element is the empty dict; a present empty list makes
`[0]` raise `IndexError` (uncaught). -/
def firstItinerary (o : Offer) : Except String Itinerary :=
  match o.itineraries with
  | none => .ok ⟨none⟩
  | some [] => .error "IndexError"
  | some (it :: _) => .ok it

/-- `connections = len(segments) - 1` for the offer's first itinerary,
with `segments` read with default `[]`. -/
def offerConnections (o : Offer) : Except String Int :=
  (firstItinerary o).map (fun it => ((it.segments.getD []).length : Int) - 1)

/-- The filtering loop of `find_cheapest_flights` (lines 156-163):
keep the offers whose first itinerary has at most `max_connections`
connections; an `IndexError` from an offer propagates. -/
def filterByConnections : List Offer → Int → Except String (List Offer)
  | [], _ => .ok []
  | o :: rest, max_connections =>
    match offerConnections o with
    | .error e => .error e
    | .ok connections =>
      match filterByConnections rest max_connections with
      | .error e => .error e
      | .ok tail =>
          .ok (if connections ≤ max_connections then o :: tail else tail)

/-- `find_cheapest_flights(token, origin, destination, departure_date,
max_connections)` with the flight-offers HTTP exchange abstracted as
`resp`.  A `RequestException` (network error or non-2xx) is caught and
yields `[]`; otherwise the received offers are filtered locally by
connection count. -/
def find_cheapest_flights (resp : HttpResult (List Offer)) (max_connections : Int) :
    Except String (List Offer) :=
  match resp with
  | .httpError => .ok []
  | .ok offers => filterByConnections offers max_connections

/-- The `min(...)` key `float(x.get("price", {}).get("total", float('inf')))`:
a missing field is `inf` (modelled `none`), a present non-numeric string
raises `ValueError` out of `min` (line 204 sits outside the `try`). -/
def minPriceKey (o : Offer) : Except String (Option ℚ) :=
  match o.priceTotal with
  | none => .ok none
  | some s =>
    match parseDecimal s with
    | none => .error "ValueError"
    | some q => .ok (some q)

/-- Strict `<` on `min` keys, with `none` playing `float('inf')`. -/
def keyLt : Option ℚ → Option ℚ → Bool
  | some a, some b => decide (a < b)
  | some _, none => true
  | none, _ => false

/-- `min` over the remaining offers with incumbent `cur` (whose key is
`curKey`): Python's `min` keeps the incumbent unless a later key is
strictly smaller, so the first minimum wins. -/
def pyMinByAux (cur : Offer) (curKey : Option ℚ) : List Offer → Except String Offer
  | [] => .ok cur
  | o :: rest =>
    match minPriceKey o with
    | .error e => .error e
    | .ok k =>
        if keyLt k curKey then pyMinByAux o k rest else pyMinByAux cur curKey rest

/-- `min(offers, key=lambda x: float(x.get("price", {}).get("total",
float('inf'))))` on a nonempty list `o :: os`. -/
def pyMinBy (o : Offer) (os : List Offer) : Except String Offer :=
  match minPriceKey o with
  | .error e => .error e
  | .ok k => pyMinByAux o k os

/-- Read of the per-month dict `cheapest_by_month`. -/
def lookupMonth (byMonth : List (String × Offer)) (k : String) : Option Offer :=
  (byMonth.find? (fun p => p.1 == k)).map (fun p => p.2)

/-- Write to the per-month dict `cheapest_by_month`. -/
def setMonth : List (String × Offer) → String → Offer → List (String × Offer)
  | [], k, v => [(k, v)]
  | (k0, v0) :: rest, k, v =>
      if k0 == k then (k, v) :: rest else (k0, v0) :: setMonth rest k v

/-- The `try` block of `search_flights_by_month` (lines 206-219) for one
probed date, given that date's per-date cheapest offer.  `none` means a
`ValueError`/`TypeError`/`KeyError` was caught and the loop `continue`d.
The overall-cheapest update (line 211) runs before the per-month check
(line 215), so a failure while reading the stored month price still
commits the already-performed overall update. -/
def tryBody (cheapest_offer : Offer) (month_key : String)
    (overall : Option Offer) (byMonth : List (String × Offer)) :
    Option (Option Offer × List (String × Offer)) :=
  match priceOf cheapest_offer with
  | none => none
  | some price =>
    let overallStep : Option (Option Offer) :=
      match overall with
      | none => some (some cheapest_offer)
      | some prev =>
        match priceOf prev with
        | none => none
        | some prevPrice =>
            some (if price < prevPrice then some cheapest_offer else some prev)
    match overallStep with
    | none => none
    | some overall2 =>
      match lookupMonth byMonth month_key with
      | none => some (overall2, setMonth byMonth month_key cheapest_offer)
      | some cur =>
        match priceOf cur with
        | none => some (overall2, byMonth)
        | some curPrice =>
            some (overall2,
              if price < curPrice then setMonth byMonth month_key cheapest_offer
              else byMonth)

/-- The aggregation loop of `search_flights_by_month` (lines 202-219)
over the per-date offer lists already returned by
`find_cheapest_flights`, threading `overall_cheapest_offer` and
`cheapest_by_month`.  An uncaught `ValueError` from the `min` key
(line 204) aborts the whole scan. -/
def scanAux : List (String × List Offer) → Option Offer →
    List (String × Offer) → Except String (List (String × Offer) × Option Offer)
  | [], overall, byMonth => .ok (byMonth, overall)
  | (month_key, offers) :: rest, overall, byMonth =>
    match offers with
    | [] => scanAux rest overall byMonth
    | o :: os =>
      match pyMinBy o os with
      | .error e => .error e
      | .ok cheapest_offer =>
        match tryBody cheapest_offer month_key overall byMonth with
        | none => scanAux rest overall byMonth
        | some (overall2, byMonth2) => scanAux rest overall2 byMonth2

/-- The aggregation of `search_flights_by_month` started from the empty
state, over the list of `(month_key, offers returned for that date)`
pairs in probe order. -/
def scanMonths (probes : List (String × List Offer)) :
    Except String (List (String × Offer) × Option Offer) :=
  scanAux probes none []

/-- Proleptic-Gregorian `(year, month)` of a day counted from
1970-01-01, as `datetime` renders it with `strftime("%Y-%m")`
(standard civil-from-days conversion; all quantities stay
nonnegative for days since the epoch). -/
def civilFromDays (day : Nat) : Nat × Nat :=
  let z := day + 719468
  let era := z / 146097
  let doe := z % 146097
  let yoe := (doe - doe / 1460 + doe / 36524 - doe / 146096) / 365
  let y := yoe + era * 400
  let doy := doe - (365 * yoe + yoe / 4 - yoe / 100)
  let mp := (5 * doy + 2) / 153
  let m := if mp < 10 then mp + 3 else mp - 9
  (if m ≤ 2 then y + 1 else y, m)

/-- `(year, month)` key of a probed day. -/
def monthKey (day : Nat) : Nat × Nat :=
  civilFromDays day

/-- Two-digit month rendering used by `strftime`. -/
def pad2 (n : Nat) : String :=
  if n < 10 then "0" ++ toString n else toString n

/-- `search_date.strftime("%Y-%m")`. -/
def monthKeyStr (day : Nat) : String :=
  toString (monthKey day).1 ++ "-" ++ pad2 (monthKey day).2

/-- The 12 probed dates of `search_flights_by_month` (lines 192-197):
`current_date + timedelta(days=30 * month_offset)` for
`month_offset in range(12)`, with dates as day counts from the epoch. -/
def probeDates (today : Nat) : List Nat :=
  (List.range 12).map (fun month_offset => today + 30 * month_offset)

/-- The per-date body of `search_flights_by_month` (lines 195-219):
fetch-and-filter via `find_cheapest_flights`, then aggregate.  `env`
gives the upstream flight-offers response for each probed day. -/
def searchByMonthAux (env : Nat → HttpResult (List Offer)) (max_connections : Int) :
    List Nat → Option Offer → List (String × Offer) →
    Except String (List (String × Offer) × Option Offer)
  | [], overall, byMonth => .ok (byMonth, overall)
  | day :: rest, overall, byMonth =>
    match find_cheapest_flights (env day) max_connections with
    | .error e => .error e
    | .ok offers =>
      match offers with
      | [] => searchByMonthAux env max_connections rest overall byMonth
      | o :: os =>
        match pyMinBy o os with
        | .error e => .error e
        | .ok cheapest_offer =>
          match tryBody cheapest_offer (monthKeyStr day) overall byMonth with
          | none => searchByMonthAux env max_connections rest overall byMonth
          | some (overall2, byMonth2) =>
              searchByMonthAux env max_connections rest overall2 byMonth2

/-- `search_flights_by_month(token, origin, destination, max_connections)`
with today's date and the upstream responses abstracted.  Returns
`(cheapest_by_month, overall_cheapest_offer)` or the uncaught exception
aborting the scan. -/
def search_flights_by_month (today : Nat) (env : Nat → HttpResult (List Offer))
    (max_connections : Int) :
    Except String (List (String × Offer) × Option Offer) :=
  searchByMonthAux env max_connections (probeDates today) none []

/-- Model of Python `int(s)` on an optional environment value:
`int(None)` raises `TypeError`; a non-integer string raises
`ValueError`; whitespace and an optional sign are accepted. -/
def pyIntOfEnv (v : Option String) : Except String Int :=
  match v with
  | none => .error "TypeError"
  | some s =>
    let cs := (s.data.dropWhile (fun c => c == ' ')).reverse.dropWhile
        (fun c => c == ' ') |>.reverse
    let signAndRest : Bool × List Char :=
      match cs with
      | '-' :: rest => (true, rest)
      | '+' :: rest => (false, rest)
      | _ => (false, cs)
    if signAndRest.2 ≠ [] ∧ signAndRest.2.all Char.isDigit then
      .ok (if signAndRest.1 then -(digitsToNat signAndRest.2 : Int)
           else (digitsToNat signAndRest.2 : Int))
    else
      .error "ValueError"

/-- The environment variables read by `main` (lines 318-320). -/
structure Env where
  origin : Option String
  destination : Option String
  max_connections : Option String
  deriving DecidableEq, Repr

/-- What `main` reaches, modelling lines 304-322 up to the token call. -/
inductive MainOutcome where
  | credentialWarning
  | crashed (err : String)
  | tokenExchangeAttempted (max_connections : Int)
  deriving DecidableEq, Repr

/-- `main` up to `get_amadeus_token()`: with placeholder credentials it
returns early; otherwise `MAX_CONNECTIONS = int(os.environ.get(
"max_connections"))` runs at line 320, before the token exchange at
line 322, and an exception there crashes the run. -/
def mainStartup (credentialsConfigured : Bool) (env : Env) : MainOutcome :=
  if !credentialsConfigured then .credentialWarning
  else
    match pyIntOfEnv env.max_connections with
    | .error e => .crashed e
    | .ok n => .tokenExchangeAttempted n

/-- The connection count the filter computes for a well-formed offer
(first itinerary's segment count minus one; `-1` also stands in for the
unreachable `IndexError` branch, which the theorems exclude). -/
def connOf (o : Offer) : Int :=
  match offerConnections o with
  | .ok c => c
  | .error _ => -1

/-- Parsed price of an offer, defaulting to `0`; only used under
hypotheses making `priceOf` defined. -/
def pv (o : Offer) : ℚ :=
  (priceOf o).getD 0

/-- Every offer in the list has a present, parseable price. -/
def AllParse (l : List Offer) : Prop :=
  ∀ o ∈ l, (priceOf o).isSome

/-- `c` is the first element of `l` attaining the minimal price:
everything before it is strictly more expensive and everything after it
is at least as expensive. -/
def IsFirstMin (l : List Offer) (c : Offer) : Prop :=
  ∃ l1 l2, l = l1 ++ c :: l2 ∧
    (∀ o ∈ l1, pv c < pv o) ∧
    (∀ o ∈ l2, pv c ≤ pv o)

/-- All offers the scan considers, in encounter order (dates in probe
order, each date's returned offers in received order). -/
def considered (probes : List (String × List Offer)) : List Offer :=
  (probes.map Prod.snd).flatten

/-- All offers returned for probes of a given month, in encounter
order. -/
def monthOffers (probes : List (String × List Offer)) (mk : String) : List Offer :=
  ((probes.filter (fun pr => pr.1 == mk)).map Prod.snd).flatten

/-- The validly parsed prices recorded for a month across the scan. -/
def monthPrices (probes : List (String × List Offer)) (mk : String) : List ℚ :=
  (monthOffers probes mk).filterMap priceOf

/-- `min` keys ordered with `none` as `float('inf')`. -/
def keyV : Option ℚ → WithTop ℚ
  | none => ⊤
  | some q => (q : WithTop ℚ)

/-- Writing a key and then reading that key yields the written value. -/
theorem cacheGet_cacheSet_self (cache : List (String × String)) (k v : String) :
    cacheGet (cacheSet cache k v) k = some v := by
  induction cache with
  | nil => simp [cacheSet, cacheGet]
  | cons hd tl ih =>
    obtain ⟨k0, v0⟩ := hd
    by_cases h : k0 = k
    · subst h
      simp [cacheSet, cacheGet]
    · simp only [cacheSet, beq_iff_eq, if_neg h]
      simpa [cacheGet, h] using ih

/-- **C7**: an upstream transport/HTTP failure (network error or
non-2xx) makes `find_cheapest_flights` return the empty list; the
failure never propagates to the caller. -/
theorem C7_http_failure_returns_empty (max_connections : Int) :
    find_cheapest_flights .httpError max_connections = .ok [] := rfl

/-- **C8**: with credentials configured and `max_connections` absent
from the environment, `main` crashes with the `TypeError` raised by
`int(None)` before the token exchange is attempted, instead of
substituting a default. -/
theorem C8_missing_max_connections_crashes (env : Env)
    (h : env.max_connections = none) :
    mainStartup true env = .crashed "TypeError" ∧
    ∀ n : Int, mainStartup true env ≠ .tokenExchangeAttempted n := by
  refine ⟨?_, ?_⟩
  · simp [mainStartup, pyIntOfEnv, h]
  · intro n
    simp [mainStartup, pyIntOfEnv, h]

theorem C8_missing_max_connections_crashes_witness :
    mainStartup true ⟨some "MAD", some "BOS", none⟩ = .crashed "TypeError" ∧
    ∀ n : Int, mainStartup true ⟨some "MAD", some "BOS", none⟩ ≠ .tokenExchangeAttempted n :=
  C8_missing_max_connections_crashes ⟨some "MAD", some "BOS", none⟩ rfl

/-- C2 as stated is false: after a network-error lookup of `"XX"` on an
empty cache, the code is returned but no cache entry is created. -/
theorem C2_counterexample_network_error_not_cached :
    (get_airline_name_from_api .httpError [] "XX").1 = "XX" ∧
    (get_airline_name_from_api .httpError [] "XX").2.1 = [] ∧
    cacheGet (get_airline_name_from_api .httpError [] "XX").2.1 "XX" = none :=
  ⟨rfl, rfl, rfl⟩

/-- **C2** (amended): for a non-empty, uncached carrier code, an empty
not-found result caches the code as its own name and returns it, while
a network/HTTP error returns the code but leaves the cache unchanged,
creating no entry. -/
theorem C2_lookup_failure_fallback (cache : List (String × String)) (code : String)
    (hne : code ≠ "") (hmiss : cacheGet cache code = none) :
    ((get_airline_name_from_api (.ok []) cache code).1 = code ∧
      cacheGet (get_airline_name_from_api (.ok []) cache code).2.1 code = some code) ∧
    ((get_airline_name_from_api .httpError cache code).1 = code ∧
      (get_airline_name_from_api .httpError cache code).2.1 = cache) := by
  refine ⟨⟨?_, ?_⟩, ?_, ?_⟩ <;>
    simp [get_airline_name_from_api, hne, hmiss, cacheGet_cacheSet_self]

theorem C2_lookup_failure_fallback_witness :
    ((get_airline_name_from_api (.ok []) [] "XX").1 = "XX" ∧
      cacheGet (get_airline_name_from_api (.ok []) [] "XX").2.1 "XX" = some "XX") ∧
    ((get_airline_name_from_api .httpError [] "XX").1 = "XX" ∧
      (get_airline_name_from_api .httpError [] "XX").2.1 = []) :=
  C2_lookup_failure_fallback [] "XX" (by decide) rfl

/-- C3 as stated is false: when the first lookup fails with a network
error, nothing is cached, so a second call issues a second lookup and
can return a different name. -/
theorem C3_counterexample_two_lookups :
    (resolveTwice .httpError (.ok [⟨some "Xandair", none⟩]) [] "XX").2.2 = 2 ∧
    (resolveTwice .httpError (.ok [⟨some "Xandair", none⟩]) [] "XX").1 = "XX" ∧
    (resolveTwice .httpError (.ok [⟨some "Xandair", none⟩]) [] "XX").2.1 = "Xandair" :=
  ⟨rfl, rfl, rfl⟩

/-- **C3** (amended): for a non-empty carrier code, if the first call's
lookup is not a network/HTTP error (cache hit, found, or not-found),
two sequential resolver calls issue at most one network lookup in total
and return the same name — including the fallback where the name equals
the code after a not-found. -/
theorem C3_resolve_idempotent_unless_network_error
    (resp1 resp2 : HttpResult (List Airline)) (cache : List (String × String))
    (code : String) (hne : code ≠ "") (h1 : resp1 ≠ .httpError) :
    (resolveTwice resp1 resp2 cache code).2.2 ≤ 1 ∧
    (resolveTwice resp1 resp2 cache code).1 =
      (resolveTwice resp1 resp2 cache code).2.1 := by
  cases hc : cacheGet cache code with
  | some v =>
    refine ⟨?_, ?_⟩ <;> simp [resolveTwice, get_airline_name_from_api, hc]
  | none =>
    cases resp1 with
    | httpError => exact absurd rfl h1
    | ok l =>
      cases l with
      | nil =>
        refine ⟨?_, ?_⟩ <;>
          simp [resolveTwice, get_airline_name_from_api, hc, hne, cacheGet_cacheSet_self]
      | cons a rest =>
        refine ⟨?_, ?_⟩ <;>
          simp [resolveTwice, get_airline_name_from_api, hc, hne, cacheGet_cacheSet_self]

theorem C3_resolve_idempotent_witness :
    (resolveTwice (.ok []) .httpError [] "XX").2.2 ≤ 1 ∧
    (resolveTwice (.ok []) .httpError [] "XX").1 =
      (resolveTwice (.ok []) .httpError [] "XX").2.1 :=
  C3_resolve_idempotent_unless_network_error (.ok []) .httpError [] "XX"
    (by decide) (by simp)

/-- **C1** (code bug): a probe whose offers carry the price totals
`"199"`, `"x"`, `"150"` makes the `min` key evaluate `float("x")`
outside the `try` block (line 204), raising `ValueError` and aborting
the whole scan instead of skipping the malformed record and keeping the
`"150"` one. -/
theorem C1_malformed_price_aborts_scan :
    search_flights_by_month 20454
      (fun d => if d = 20454 then
          .ok [⟨none, some "199"⟩, ⟨none, some "x"⟩, ⟨none, some "150"⟩]
        else .httpError) 2 = .error "ValueError" ∧
    scanMonths [("2026-01",
      [⟨none, some "199"⟩, ⟨none, some "x"⟩, ⟨none, some "150"⟩])] =
      .error "ValueError" :=
  ⟨rfl, rfl⟩

/-- For an offer whose `itineraries` field is not a present-but-empty
list, the filter's connection count is defined and equals `connOf`. -/
theorem offerConnections_of_wf (o : Offer) (h : o.itineraries ≠ some []) :
    offerConnections o = .ok (connOf o) := by
  cases hit : o.itineraries with
  | none => simp [connOf, offerConnections, firstItinerary, hit, Except.map]
  | some l =>
    cases l with
    | nil => exact absurd hit h
    | cons it rest => simp [connOf, offerConnections, firstItinerary, hit, Except.map]

/-- The filtering loop keeps exactly the offers with at most
`max_connections` connections, in order. -/
theorem filterByConnections_eq (offers : List Offer) (max_connections : Int)
    (h : ∀ o ∈ offers, o.itineraries ≠ some []) :
    filterByConnections offers max_connections =
      .ok (offers.filter (fun o => decide (connOf o ≤ max_connections))) := by
  induction offers with
  | nil => rfl
  | cons o rest ih =>
    have ho := offerConnections_of_wf o (h o (by simp))
    have hrest := ih (fun o2 hm => h o2 (by simp [hm]))
    by_cases hc : connOf o ≤ max_connections <;>
      simp [filterByConnections, ho, hrest, List.filter_cons, hc]

/-- **C4**: on a successful upstream response whose offers each have at
least one itinerary (or none listed at all), `find_cheapest_flights`
returns exactly the offers whose locally computed connection count
(first itinerary's segment count minus one) does not exceed
`max_connections`; any other offer is filtered out. -/
theorem C4_filter_exactly_by_connection_count (offers : List Offer)
    (max_connections : Int) (h : ∀ o ∈ offers, o.itineraries ≠ some []) :
    ∃ kept, find_cheapest_flights (.ok offers) max_connections = .ok kept ∧
      kept = offers.filter (fun o => decide (connOf o ≤ max_connections)) ∧
      ∀ o ∈ offers, (connOf o ≤ max_connections ↔ o ∈ kept) := by
  refine ⟨offers.filter (fun o => decide (connOf o ≤ max_connections)),
    filterByConnections_eq offers max_connections h, rfl, ?_⟩
  intro o hmem
  constructor
  · intro hle
    exact List.mem_filter.mpr ⟨hmem, by simpa using hle⟩
  · intro hkept
    simpa using (List.mem_filter.mp hkept).2

theorem C4_filter_exactly_witness :
    ∃ kept, find_cheapest_flights
        (.ok [⟨some [⟨some [⟨"AA"⟩]⟩], some "100"⟩,
              ⟨some [⟨some [⟨"AA"⟩, ⟨"BB"⟩, ⟨"CC"⟩]⟩], some "50"⟩])
        1 = .ok kept ∧
      kept = [⟨some [⟨some [⟨"AA"⟩]⟩], some "100"⟩,
              ⟨some [⟨some [⟨"AA"⟩, ⟨"BB"⟩, ⟨"CC"⟩]⟩], some "50"⟩].filter
          (fun o => decide (connOf o ≤ 1)) ∧
      ∀ o ∈ [⟨some [⟨some [⟨"AA"⟩]⟩], some "100"⟩,
             ⟨some [⟨some [⟨"AA"⟩, ⟨"BB"⟩, ⟨"CC"⟩]⟩], some "50"⟩],
        (connOf o ≤ 1 ↔ o ∈ kept) :=
  C4_filter_exactly_by_connection_count _ 1 (by decide)

/-- **C9**: the connection filter inspects only the first itinerary:
the computed count ignores the tail of `itineraries`, so an offer whose
second itinerary exceeds `max_connections` is still returned whenever
its first itinerary passes. -/
theorem C9_filter_ignores_second_itinerary (it1 it2 : Itinerary)
    (rest : List Itinerary) (pt : Option String) (max_connections : Int)
    (h1 : ((it1.segments.getD []).length : Int) - 1 ≤ max_connections)
    (h2 : max_connections < ((it2.segments.getD []).length : Int) - 1) :
    offerConnections ⟨some (it1 :: it2 :: rest), pt⟩ =
      .ok (((it1.segments.getD []).length : Int) - 1) ∧
    find_cheapest_flights (.ok [⟨some (it1 :: it2 :: rest), pt⟩]) max_connections =
      .ok [⟨some (it1 :: it2 :: rest), pt⟩] := by
  refine ⟨rfl, ?_⟩
  simp [find_cheapest_flights, filterByConnections, offerConnections, firstItinerary,
    Except.map, h1]

theorem C9_filter_ignores_second_itinerary_witness :
    offerConnections ⟨some [⟨some [⟨"AA"⟩]⟩, ⟨some [⟨"AA"⟩, ⟨"BB"⟩]⟩], none⟩ =
      .ok ((([(⟨"AA"⟩ : Segment)].length : Int)) - 1) ∧
    find_cheapest_flights
        (.ok [⟨some [⟨some [⟨"AA"⟩]⟩, ⟨some [⟨"AA"⟩, ⟨"BB"⟩]⟩], none⟩]) 0 =
      .ok [⟨some [⟨some [⟨"AA"⟩]⟩, ⟨some [⟨"AA"⟩, ⟨"BB"⟩]⟩], none⟩] :=
  C9_filter_ignores_second_itinerary ⟨some [⟨"AA"⟩]⟩ ⟨some [⟨"AA"⟩, ⟨"BB"⟩]⟩
    [] none 0 (by decide) (by decide)

/-- **C10**: the scan probes exactly 12 dates, the `k`-th being today
plus `30 k` days, all within 330 days of today; and two probe dates can
share a calendar month, so fewer than 12 distinct month keys can
result. -/
theorem C10_twelve_probes_within_330_days :
    (∀ today : Nat, (probeDates today).length = 12 ∧
      (∀ k, k < 12 → (probeDates today).getD k 0 = today + 30 * k) ∧
      (∀ d ∈ probeDates today, today ≤ d ∧ d ≤ today + 330)) ∧
    (∃ t : Nat, ((probeDates t).map monthKey).dedup.length < 12) := by
  have hrange : List.range 12 = [0, 1, 2, 3, 4, 5, 6, 7, 8, 9, 10, 11] := rfl
  refine ⟨fun today => ⟨?_, ?_, ?_⟩, ⟨20454, by decide⟩⟩
  · simp [probeDates]
  · intro k hk
    interval_cases k <;> simp [probeDates, hrange]
  · intro d hd
    simp only [probeDates, List.mem_map, List.mem_range] at hd
    obtain ⟨k, hk, rfl⟩ := hd
    omega

theorem C10_twelve_probes_witness :
    (probeDates 20454).length = 12 ∧
    (probeDates 20454).getD 11 0 = 20454 + 30 * 11 ∧
    (20454 + 330 ∈ probeDates 20454 →
      20454 ≤ 20454 + 330 ∧ 20454 + 330 ≤ 20454 + 330) :=
  ⟨(C10_twelve_probes_within_330_days.1 20454).1,
   (C10_twelve_probes_within_330_days.1 20454).2.1 11 (by decide),
   fun hm => (C10_twelve_probes_within_330_days.1 20454).2.2 (20454 + 330) hm⟩

/-- Writing a month key and reading it back yields the written offer. -/
theorem lookupMonth_setMonth_self (bm : List (String × Offer)) (k : String) (v : Offer) :
    lookupMonth (setMonth bm k v) k = some v := by
  induction bm with
  | nil => simp [setMonth, lookupMonth]
  | cons hd tl ih =>
    obtain ⟨k0, v0⟩ := hd
    by_cases h : k0 = k
    · subst h
      simp [setMonth, lookupMonth]
    · simp only [setMonth, beq_iff_eq, if_neg h]
      simpa [lookupMonth, h] using ih

/-- Writing one month key leaves every other key's entry unchanged. -/
theorem lookupMonth_setMonth_ne (bm : List (String × Offer)) (k k2 : String)
    (v : Offer) (h : k2 ≠ k) :
    lookupMonth (setMonth bm k v) k2 = lookupMonth bm k2 := by
  induction bm with
  | nil => simp [setMonth, lookupMonth, Ne.symm h]
  | cons hd tl ih =>
    obtain ⟨k0, v0⟩ := hd
    by_cases h0 : k0 = k
    · subst h0
      simp [setMonth, lookupMonth, Ne.symm h]
    · simp only [setMonth, beq_iff_eq, if_neg h0]
      by_cases h2 : k0 = k2
      · subst h2
        simp [lookupMonth]
      · simpa [lookupMonth, h2] using ih

/-- Entries after a month write: the written pair or an old entry. -/
theorem mem_setMonth (bm : List (String × Offer)) (k : String) (v : Offer)
    (e : String × Offer) (h : e ∈ setMonth bm k v) : e = (k, v) ∨ e ∈ bm := by
  induction bm with
  | nil => simpa [setMonth] using h
  | cons hd tl ih =>
    obtain ⟨k0, v0⟩ := hd
    by_cases h0 : k0 = k
    · subst h0
      simp only [setMonth, beq_iff_eq, if_pos rfl] at h
      rcases List.mem_cons.mp h with h1 | h1
      · exact Or.inl h1
      · exact Or.inr (List.mem_cons.mpr (Or.inr h1))
    · simp only [setMonth, beq_iff_eq, if_neg h0] at h
      rcases List.mem_cons.mp h with h1 | h1
      · exact Or.inr (by simp [h1])
      · rcases ih h1 with h2 | h2
        · exact Or.inl h2
        · exact Or.inr (by simp [h2])

/-- A successful month lookup is a membership fact. -/
theorem lookupMonth_mem (bm : List (String × Offer)) (k : String) (v : Offer)
    (h : lookupMonth bm k = some v) : (k, v) ∈ bm := by
  unfold lookupMonth at h
  cases hf : bm.find? (fun p => p.1 == k) with
  | none => rw [hf] at h; exact absurd h (by simp)
  | some pr =>
    rw [hf] at h
    have hm := List.mem_of_find?_eq_some hf
    have hp := List.find?_some hf
    obtain ⟨k1, v1⟩ := pr
    simp at h
    simp at hp
    subst hp
    subst h
    exact hm

/-- `keyLt` decides the strict order of keys with `none` as `+∞`. -/
theorem keyLt_iff (a b : Option ℚ) : keyLt a b = true ↔ keyV a < keyV b := by
  cases a <;> cases b <;> simp [keyLt, keyV]

/-- A parsed price determines the `min` key. -/
theorem minPriceKey_of_priceOf (o : Offer) (p : ℚ) (h : priceOf o = some p) :
    minPriceKey o = .ok (some p) := by
  cases ht : o.priceTotal with
  | none => simp [priceOf, ht] at h
  | some s =>
    simp only [priceOf, ht] at h
    simp at h
    simp [minPriceKey, ht, h]

/-- An `inf` key means the price field is missing. -/
theorem minPriceKey_ok_none (o : Offer) (h : minPriceKey o = .ok none) :
    priceOf o = none := by
  cases ht : o.priceTotal with
  | none => simp [priceOf, ht]
  | some s =>
    cases hp : parseDecimal s with
    | none => simp [minPriceKey, ht, hp] at h
    | some q => simp [minPriceKey, ht, hp] at h

/-- A finite key is the parsed price. -/
theorem minPriceKey_ok_some (o : Offer) (q : ℚ) (h : minPriceKey o = .ok (some q)) :
    priceOf o = some q := by
  cases ht : o.priceTotal with
  | none => simp [minPriceKey, ht] at h
  | some s =>
    cases hp : parseDecimal s with
    | none => simp [minPriceKey, ht, hp] at h
    | some q2 =>
      simp [minPriceKey, ht, hp] at h
      simp [priceOf, ht, hp, h]

/-- `min` with incumbent `cur` (of key `k`) returns an element of the
scanned list whose key is a lower bound of all scanned keys, keeping
the incumbent on ties. -/
theorem pyMinByAux_spec : ∀ (os : List Offer) (cur : Offer) (k : Option ℚ) (res : Offer),
    minPriceKey cur = .ok k → pyMinByAux cur k os = .ok res →
    ∃ kr, minPriceKey res = .ok kr ∧ (res = cur ∨ res ∈ os) ∧ keyV kr ≤ keyV k ∧
      ∀ x ∈ os, ∃ kx, minPriceKey x = .ok kx ∧ keyV kr ≤ keyV kx := by
  intro os
  induction os with
  | nil =>
    intro cur k res hk hrun
    simp only [pyMinByAux, Except.ok.injEq] at hrun
    subst hrun
    exact ⟨k, hk, Or.inl rfl, le_refl _, by simp⟩
  | cons o rest ih =>
    intro cur k res hk hrun
    cases hko : minPriceKey o with
    | error e => simp [pyMinByAux, hko] at hrun
    | ok ko =>
      simp only [pyMinByAux, hko] at hrun
      by_cases hlt : keyLt ko k = true
      · rw [if_pos hlt] at hrun
        obtain ⟨kr, hkr, hmem, hle, hall⟩ := ih o ko res hko hrun
        refine ⟨kr, hkr, ?_, ?_, ?_⟩
        · rcases hmem with h | h
          · exact Or.inr (by simp [h])
          · exact Or.inr (by simp [h])
        · exact le_trans hle (le_of_lt ((keyLt_iff ko k).mp hlt))
        · intro x hx
          rcases List.mem_cons.mp hx with rfl | hx2
          · exact ⟨ko, hko, hle⟩
          · exact hall x hx2
      · rw [if_neg hlt] at hrun
        obtain ⟨kr, hkr, hmem, hle, hall⟩ := ih cur k res hk hrun
        refine ⟨kr, hkr, ?_, hle, ?_⟩
        · rcases hmem with h | h
          · exact Or.inl h
          · exact Or.inr (by simp [h])
        · intro x hx
          rcases List.mem_cons.mp hx with rfl | hx2
          · refine ⟨ko, hko, ?_⟩
            have hnk : ¬ keyV ko < keyV k := fun hc => hlt ((keyLt_iff ko k).mpr hc)
            exact le_trans hle (not_lt.mp hnk)
          · exact hall x hx2

/-- `min(offers, key=...)` returns a member whose key is minimal. -/
theorem pyMinBy_spec (o : Offer) (os : List Offer) (res : Offer)
    (h : pyMinBy o os = .ok res) :
    res ∈ o :: os ∧ ∃ kr, minPriceKey res = .ok kr ∧
      ∀ x ∈ o :: os, ∃ kx, minPriceKey x = .ok kx ∧ keyV kr ≤ keyV kx := by
  cases hko : minPriceKey o with
  | error e => simp [pyMinBy, hko] at h
  | ok k =>
    simp only [pyMinBy, hko] at h
    obtain ⟨kr, hkr, hmem, hle, hall⟩ := pyMinByAux_spec os o k res hko h
    refine ⟨?_, kr, hkr, ?_⟩
    · rcases hmem with h1 | h1
      · simp [h1]
      · simp [h1]
    · intro x hx
      rcases List.mem_cons.mp hx with rfl | hx2
      · exact ⟨k, hko, hle⟩
      · exact hall x hx2

/-- When the per-date winner's price parses, it is a lower bound of
every parsed price of that date. -/
theorem pyMinBy_min_price (o : Offer) (os : List Offer) (res : Offer) (p : ℚ)
    (h : pyMinBy o os = .ok res) (hp : priceOf res = some p) :
    res ∈ o :: os ∧ ∀ x ∈ o :: os, ∀ q, priceOf x = some q → p ≤ q := by
  obtain ⟨hmem, kr, hkr, hall⟩ := pyMinBy_spec o os res h
  have hkrp : minPriceKey res = .ok (some p) := minPriceKey_of_priceOf res p hp
  rw [hkr] at hkrp
  have hkr2 : kr = some p := by
    injection hkrp
  subst hkr2
  refine ⟨hmem, ?_⟩
  intro x hx q hq
  obtain ⟨kx, hkx, hle⟩ := hall x hx
  have hq2 : minPriceKey x = .ok (some q) := minPriceKey_of_priceOf x q hq
  rw [hkx] at hq2
  have hkx2 : kx = some q := by
    injection hq2
  subst hkx2
  simpa [keyV] using hle

/-- When the per-date winner's price is missing, no price of that date
parses (a present-but-malformed one would have aborted `min`). -/
theorem pyMinBy_unparseable (o : Offer) (os : List Offer) (res : Offer)
    (h : pyMinBy o os = .ok res) (hp : priceOf res = none) :
    ∀ x ∈ o :: os, priceOf x = none := by
  obtain ⟨hmem, kr, hkr, hall⟩ := pyMinBy_spec o os res h
  cases kr with
  | some q =>
    have := minPriceKey_ok_some res q hkr
    rw [hp] at this
    exact absurd this (by simp)
  | none =>
    intro x hx
    obtain ⟨kx, hkx, hle⟩ := hall x hx
    cases kx with
    | none => exact minPriceKey_ok_none x hkx
    | some q =>
      exfalso
      have htop : keyV (some q) = (⊤ : WithTop ℚ) := top_le_iff.mp (by simpa [keyV] using hle)
      simp [keyV] at htop

/-- Appending one probe contributes its offers only to its own month. -/
theorem monthOffers_append_single (past : List (String × List Offer))
    (mk0 mk : String) (l : List Offer) :
    monthOffers (past ++ [(mk0, l)]) mk =
      monthOffers past mk ++ (if mk0 = mk then l else []) := by
  unfold monthOffers
  rw [List.filter_append, List.map_append, List.flatten_append]
  congr 1
  by_cases h : mk0 = mk
  · simp [h]
  · simp [h]

/-- Appending one probe contributes its parsed prices only to its own
month. -/
theorem monthPrices_append_single (past : List (String × List Offer))
    (mk0 mk : String) (l : List Offer) :
    monthPrices (past ++ [(mk0, l)]) mk =
      monthPrices past mk ++ (if mk0 = mk then l.filterMap priceOf else []) := by
  unfold monthPrices
  rw [monthOffers_append_single, List.filterMap_append]
  by_cases h : mk0 = mk <;> simp [h]

/-- Updating one month (or not touching the map) leaves other months'
entries unchanged. -/
theorem lookupMonth_after_update (bm bm2 : List (String × Offer))
    (mk0 mk : String) (c : Offer) (hmk : mk0 ≠ mk)
    (hup : bm2 = setMonth bm mk0 c ∨ bm2 = bm) :
    lookupMonth bm2 mk = lookupMonth bm mk := by
  rcases hup with h | h
  · rw [h]
    exact lookupMonth_setMonth_ne bm mk0 mk c (Ne.symm hmk)
  · rw [h]

/-- One `try`-block step with a parsed incoming price: it always
commits (no exception escapes the characterised cases), updates the
overall holder on strictly lower price, and updates the month holder on
strictly lower price. -/
theorem tryBody_step (c : Offer) (mk : String) (ov : Option Offer)
    (bm : List (String × Offer)) (p : ℚ) (hpc : priceOf c = some p)
    (hov : ∀ a, ov = some a → (priceOf a).isSome) :
    ∃ ov2 bm2, tryBody c mk ov bm = some (ov2, bm2) ∧
      ((ov = none ∧ ov2 = some c) ∨
        (∃ a pa, ov = some a ∧ priceOf a = some pa ∧
          ov2 = (if p < pa then some c else some a))) ∧
      ((lookupMonth bm mk = none ∧ bm2 = setMonth bm mk c) ∨
        (∃ cur, lookupMonth bm mk = some cur ∧ priceOf cur = none ∧ bm2 = bm) ∨
        (∃ cur pcur, lookupMonth bm mk = some cur ∧ priceOf cur = some pcur ∧
          bm2 = (if p < pcur then setMonth bm mk c else bm))) := by
  cases ov with
  | none =>
    cases hlk : lookupMonth bm mk with
    | none =>
      exact ⟨some c, setMonth bm mk c, by simp [tryBody, hpc, hlk],
        Or.inl ⟨rfl, rfl⟩, Or.inl ⟨rfl, rfl⟩⟩
    | some cur =>
      cases hcur : priceOf cur with
      | none =>
        exact ⟨some c, bm, by simp [tryBody, hpc, hlk, hcur],
          Or.inl ⟨rfl, rfl⟩, Or.inr (Or.inl ⟨cur, rfl, hcur, rfl⟩)⟩
      | some pcur =>
        exact ⟨some c, if p < pcur then setMonth bm mk c else bm,
          by simp [tryBody, hpc, hlk, hcur],
          Or.inl ⟨rfl, rfl⟩, Or.inr (Or.inr ⟨cur, pcur, rfl, hcur, rfl⟩)⟩
  | some a =>
    have hpa2 : ∃ pa, priceOf a = some pa := Option.isSome_iff_exists.mp (hov a rfl)
    obtain ⟨pa, hpa⟩ := hpa2
    cases hlk : lookupMonth bm mk with
    | none =>
      exact ⟨if p < pa then some c else some a, setMonth bm mk c,
        by simp [tryBody, hpc, hpa, hlk],
        Or.inr ⟨a, pa, rfl, hpa, rfl⟩, Or.inl ⟨rfl, rfl⟩⟩
    | some cur =>
      cases hcur : priceOf cur with
      | none =>
        exact ⟨if p < pa then some c else some a, bm,
          by simp [tryBody, hpc, hpa, hlk, hcur],
          Or.inr ⟨a, pa, rfl, hpa, rfl⟩, Or.inr (Or.inl ⟨cur, rfl, hcur, rfl⟩)⟩
      | some pcur =>
        exact ⟨if p < pa then some c else some a,
          if p < pcur then setMonth bm mk c else bm,
          by simp [tryBody, hpc, hpa, hlk, hcur],
          Or.inr ⟨a, pa, rfl, hpa, rfl⟩, Or.inr (Or.inr ⟨cur, pcur, rfl, hcur, rfl⟩)⟩

/-- A probe with no offers contributes no prices to any month. -/
theorem monthPrices_append_empty (past : List (String × List Offer))
    (mk0 mk : String) :
    monthPrices (past ++ [(mk0, [])]) mk = monthPrices past mk := by
  rw [monthPrices_append_single]
  by_cases h : mk0 = mk <;> simp [h]

/-- Invariant of the aggregation loop: every stored month entry has a
parsed price that is a lower bound of, and attained among, the prices
recorded for that month so far; months with no recorded prices hold no
entry; and the stored overall holder's price always parses. -/
theorem scanAux_month_invariant :
    ∀ (probes past : List (String × List Offer)) (ov : Option Offer)
      (bm : List (String × Offer)) (res : List (String × Offer) × Option Offer),
    (∀ a, ov = some a → (priceOf a).isSome) →
    (∀ mk o, lookupMonth bm mk = some o → ∃ p, priceOf o = some p ∧
      (∀ q ∈ monthPrices past mk, p ≤ q) ∧ p ∈ monthPrices past mk) →
    (∀ mk, lookupMonth bm mk = none → monthPrices past mk = []) →
    scanAux probes ov bm = .ok res →
    (∀ a, res.2 = some a → (priceOf a).isSome) ∧
    (∀ mk o, lookupMonth res.1 mk = some o → ∃ p, priceOf o = some p ∧
      (∀ q ∈ monthPrices (past ++ probes) mk, p ≤ q) ∧
      p ∈ monthPrices (past ++ probes) mk) ∧
    (∀ mk, lookupMonth res.1 mk = none → monthPrices (past ++ probes) mk = []) := by
  intro probes
  induction probes with
  | nil =>
    intro past ov bm res hov hbm habs hrun
    simp only [scanAux, Except.ok.injEq] at hrun
    subst hrun
    rw [List.append_nil]
    exact ⟨hov, hbm, habs⟩
  | cons pr rest ih =>
    obtain ⟨mk0, l⟩ := pr
    intro past ov bm res hov hbm habs hrun
    have hsplit : past ++ ((mk0, l) :: rest) = (past ++ [(mk0, l)]) ++ rest := by simp
    rw [hsplit]
    cases l with
    | nil =>
      simp only [scanAux] at hrun
      refine ih (past ++ [(mk0, [])]) ov bm res hov ?_ ?_ hrun
      · intro mk o hlk
        rw [monthPrices_append_empty]
        exact hbm mk o hlk
      · intro mk hlk
        rw [monthPrices_append_empty]
        exact habs mk hlk
    | cons o os =>
      cases hmin : pyMinBy o os with
      | error e => simp [scanAux, hmin] at hrun
      | ok c =>
        simp only [scanAux, hmin] at hrun
        cases hpc : priceOf c with
        | none =>
          have htb : tryBody c mk0 ov bm = none := by simp [tryBody, hpc]
          simp only [htb] at hrun
          have hnop : ∀ x ∈ o :: os, priceOf x = none :=
            pyMinBy_unparseable o os c hmin hpc
          have hfm : (o :: os).filterMap priceOf = [] :=
            List.filterMap_eq_nil.mpr hnop
          have hmp : ∀ mk, monthPrices (past ++ [(mk0, o :: os)]) mk = monthPrices past mk := by
            intro mk
            rw [monthPrices_append_single]
            by_cases h : mk0 = mk <;> simp [h, hfm]
          refine ih (past ++ [(mk0, o :: os)]) ov bm res hov ?_ ?_ hrun
          · intro mk o2 hlk
            rw [hmp mk]
            exact hbm mk o2 hlk
          · intro mk hlk
            rw [hmp mk]
            exact habs mk hlk
        | some p =>
          obtain ⟨ov2, bm2, htb, hovup, hbmup⟩ := tryBody_step c mk0 ov bm p hpc hov
          simp only [htb] at hrun
          have hminp := pyMinBy_min_price o os c p hmin hpc
          have hov2 : ∀ a, ov2 = some a → (priceOf a).isSome := by
            rcases hovup with ⟨_, h2⟩ | ⟨a, pa, _, hpa, h2⟩
            · intro x hx
              rw [h2] at hx
              injection hx with hx2
              subst hx2
              simp [hpc]
            · intro x hx
              rw [h2] at hx
              by_cases hcmp : p < pa
              · rw [if_pos hcmp] at hx
                injection hx with hx2
                subst hx2
                simp [hpc]
              · rw [if_neg hcmp] at hx
                injection hx with hx2
                subst hx2
                simp [hpa]
          have hcontrib : monthPrices (past ++ [(mk0, o :: os)]) mk0 =
              monthPrices past mk0 ++ (o :: os).filterMap priceOf := by
            rw [monthPrices_append_single]
            simp
          have hother : ∀ mk, mk0 ≠ mk →
              monthPrices (past ++ [(mk0, o :: os)]) mk = monthPrices past mk := by
            intro mk h
            rw [monthPrices_append_single]
            simp [h]
          have hple : ∀ q ∈ (o :: os).filterMap priceOf, p ≤ q := by
            intro q hq
            obtain ⟨x, hxmem, hxq⟩ := List.mem_filterMap.mp hq
            exact hminp.2 x hxmem q hxq
          have hpmem : p ∈ (o :: os).filterMap priceOf :=
            List.mem_filterMap.mpr ⟨c, hminp.1, hpc⟩
          have hbm2cases : bm2 = setMonth bm mk0 c ∨ bm2 = bm := by
            rcases hbmup with ⟨_, h2⟩ | ⟨cur, _, _, h2⟩ | ⟨cur, pcur, _, _, h2⟩
            · exact Or.inl h2
            · exact Or.inr h2
            · by_cases hcmp : p < pcur
              · exact Or.inl (by rw [h2, if_pos hcmp])
              · exact Or.inr (by rw [h2, if_neg hcmp])
          have hbm2 : ∀ mk o2, lookupMonth bm2 mk = some o2 → ∃ p2, priceOf o2 = some p2 ∧
              (∀ q ∈ monthPrices (past ++ [(mk0, o :: os)]) mk, p2 ≤ q) ∧
              p2 ∈ monthPrices (past ++ [(mk0, o :: os)]) mk := by
            intro mk o2 hlk2
            by_cases hmk : mk0 = mk
            · subst hmk
              rw [hcontrib]
              rcases hbmup with ⟨hlkn, hbm2eq⟩ | ⟨cur, hlkc, hcurn, hbm2eq⟩ |
                ⟨cur, pcur, hlkc, hcurp, hbm2eq⟩
              · rw [hbm2eq, lookupMonth_setMonth_self] at hlk2
                injection hlk2 with hx
                subst hx
                refine ⟨p, hpc, ?_, List.mem_append_right _ hpmem⟩
                intro q hq
                rcases List.mem_append.mp hq with h | h
                · rw [habs mk0 hlkn] at h
                  exact absurd h (List.not_mem_nil q)
                · exact hple q h
              · obtain ⟨pc2, hpc2, _, _⟩ := hbm mk0 cur hlkc
                rw [hcurn] at hpc2
                exact absurd hpc2 (by simp)
              · obtain ⟨pc2, hpc2, hminc, hmemc⟩ := hbm mk0 cur hlkc
                rw [hcurp] at hpc2
                injection hpc2 with hpc3
                subst hpc3
                rw [hbm2eq] at hlk2
                by_cases hcmp : p < pcur
                · rw [if_pos hcmp, lookupMonth_setMonth_self] at hlk2
                  injection hlk2 with hx
                  subst hx
                  refine ⟨p, hpc, ?_, List.mem_append_right _ hpmem⟩
                  intro q hq
                  rcases List.mem_append.mp hq with h | h
                  · exact le_trans (le_of_lt hcmp) (hminc q h)
                  · exact hple q h
                · rw [if_neg hcmp, hlkc] at hlk2
                  injection hlk2 with hx
                  subst hx
                  refine ⟨pcur, hcurp, ?_, List.mem_append_left _ hmemc⟩
                  intro q hq
                  rcases List.mem_append.mp hq with h | h
                  · exact hminc q h
                  · exact le_trans (not_lt.mp hcmp) (hple q h)
            · rw [hother mk hmk]
              rw [lookupMonth_after_update bm bm2 mk0 mk c hmk hbm2cases] at hlk2
              exact hbm mk o2 hlk2
          have habs2 : ∀ mk, lookupMonth bm2 mk = none →
              monthPrices (past ++ [(mk0, o :: os)]) mk = [] := by
            intro mk hlk2
            by_cases hmk : mk0 = mk
            · subst hmk
              exfalso
              rcases hbmup with ⟨hlkn, hbm2eq⟩ | ⟨cur, hlkc, hcurn, hbm2eq⟩ |
                ⟨cur, pcur, hlkc, hcurp, hbm2eq⟩
              · rw [hbm2eq, lookupMonth_setMonth_self] at hlk2
                exact absurd hlk2 (by simp)
              · rw [hbm2eq, hlkc] at hlk2
                exact absurd hlk2 (by simp)
              · rw [hbm2eq] at hlk2
                by_cases hcmp : p < pcur
                · rw [if_pos hcmp, lookupMonth_setMonth_self] at hlk2
                  exact absurd hlk2 (by simp)
                · rw [if_neg hcmp, hlkc] at hlk2
                  exact absurd hlk2 (by simp)
            · rw [hother mk hmk]
              rw [lookupMonth_after_update bm bm2 mk0 mk c hmk hbm2cases] at hlk2
              exact habs mk hlk2
          exact ih (past ++ [(mk0, o :: os)]) ov2 bm2 res hov2 hbm2 habs2 hrun

/-- **C5**: whenever the scan completes, every month entry of
`cheapest_by_month` holds an offer whose parsed price is a lower bound
of all validly parsed prices recorded for that month, attained by at
least one recorded input; and one `try`-block step replaces a month's
current holder only on strictly lower price (ties keep the incumbent). -/
theorem C5_monthly_best_invariant :
    (∀ (probes : List (String × List Offer)) (bm : List (String × Offer))
        (ov : Option Offer) (mk : String) (o : Offer),
      scanMonths probes = .ok (bm, ov) → lookupMonth bm mk = some o →
      ∃ p, priceOf o = some p ∧ (∀ q ∈ monthPrices probes mk, p ≤ q) ∧
        p ∈ monthPrices probes mk) ∧
    (∀ (cheapest : Offer) (mk : String) (bm : List (String × Offer)) (cur : Offer)
        (p pcur : ℚ) (r : Option Offer × List (String × Offer)),
      priceOf cheapest = some p → lookupMonth bm mk = some cur →
      priceOf cur = some pcur → tryBody cheapest mk none bm = some r →
      lookupMonth r.2 mk = some (if p < pcur then cheapest else cur)) := by
  constructor
  · intro probes bm ov mk o hrun hlk
    have h := scanAux_month_invariant probes [] none [] (bm, ov)
      (fun a ha => absurd ha (by simp))
      (fun mk2 o2 h2 => absurd h2 (by simp [lookupMonth]))
      (fun mk2 _ => rfl) hrun
    exact h.2.1 mk o hlk
  · intro cheapest mk bm cur p pcur r hp hlk hpcur htb
    simp only [tryBody, hp, hlk, hpcur] at htb
    have hr : (some cheapest,
        if p < pcur then setMonth bm mk cheapest else bm) = r :=
      Option.some.inj htb
    subst hr
    by_cases hcmp : p < pcur
    · simp [hcmp, lookupMonth_setMonth_self]
    · simp [hcmp, hlk]

theorem C5_monthly_best_witness :
    (∃ p, priceOf (⟨none, some "95"⟩ : Offer) = some p ∧
      (∀ q ∈ monthPrices [("2026-01", [(⟨none, some "120"⟩ : Offer)]),
          ("2026-01", [(⟨none, some "95"⟩ : Offer)])] "2026-01", p ≤ q) ∧
      p ∈ monthPrices [("2026-01", [(⟨none, some "120"⟩ : Offer)]),
          ("2026-01", [(⟨none, some "95"⟩ : Offer)])] "2026-01") ∧
    lookupMonth (some (⟨none, some "95"⟩ : Offer),
        [("2026-01", (⟨none, some "95"⟩ : Offer))]).2 "2026-01" =
      some (if (95 : ℚ) < 120 then ⟨none, some "95"⟩ else ⟨none, some "120"⟩) :=
  ⟨C5_monthly_best_invariant.1
      [("2026-01", [⟨none, some "120"⟩]), ("2026-01", [⟨none, some "95"⟩])]
      [("2026-01", ⟨none, some "95"⟩)] (some ⟨none, some "95"⟩)
      "2026-01" ⟨none, some "95"⟩ rfl rfl,
   C5_monthly_best_invariant.2 ⟨none, some "95"⟩ "2026-01"
      [("2026-01", ⟨none, some "120"⟩)] ⟨none, some "120"⟩ 95 120
      (some ⟨none, some "95"⟩, [("2026-01", ⟨none, some "95"⟩)])
      (by decide) rfl (by decide) (by decide)⟩

/-- A parseable price equals its defaulted value. -/
theorem priceOf_eq_pv (o : Offer) (h : (priceOf o).isSome) :
    priceOf o = some (pv o) := by
  cases hp : priceOf o with
  | none => rw [hp] at h; exact absurd h (by simp)
  | some q => simp [pv, hp]

/-- The first minimum is a member of its list. -/
theorem IsFirstMin_mem (l : List Offer) (c : Offer) (h : IsFirstMin l c) :
    c ∈ l := by
  obtain ⟨l1, l2, hsplit, _, _⟩ := h
  rw [hsplit]
  exact List.mem_append_right l1 (by simp)

/-- Running `min` over further offers (all with parsed prices) starting
from the first minimum of the already-scanned prefix yields the first
minimum of the whole scanned list. -/
theorem pyMinByAux_isFirstMin :
    ∀ (os : List Offer) (cur : Offer) (A : List Offer),
    (∀ x ∈ os, (priceOf x).isSome) → AllParse A → IsFirstMin A cur →
    ∃ c, pyMinByAux cur (some (pv cur)) os = .ok c ∧ IsFirstMin (A ++ os) c := by
  intro os
  induction os with
  | nil =>
    intro cur A hos hA hfm
    exact ⟨cur, rfl, by simpa using hfm⟩
  | cons o rest ih =>
    intro cur A hos hA hfm
    have hpo : priceOf o = some (pv o) := priceOf_eq_pv o (hos o (by simp))
    have hko : minPriceKey o = .ok (some (pv o)) := minPriceKey_of_priceOf o (pv o) hpo
    simp only [pyMinByAux, hko]
    have hkiff : keyLt (some (pv o)) (some (pv cur)) = true ↔ pv o < pv cur := by
      simp [keyLt]
    by_cases hlt : pv o < pv cur
    · rw [if_pos (hkiff.mpr hlt)]
      have hfm2 : IsFirstMin (A ++ [o]) o := by
        obtain ⟨l1, l2, hsplit, h1, h2⟩ := hfm
        refine ⟨A, [], by simp, ?_, by simp⟩
        intro x hx
        rw [hsplit] at hx
        rcases List.mem_append.mp hx with hx1 | hx2
        · exact lt_trans hlt (h1 x hx1)
        · rcases List.mem_cons.mp hx2 with rfl | hx3
          · exact hlt
          · exact lt_of_lt_of_le hlt (h2 x hx3)
      have hA2 : AllParse (A ++ [o]) := by
        intro x hx
        rcases List.mem_append.mp hx with hx1 | hx2
        · exact hA x hx1
        · rcases List.mem_cons.mp hx2 with rfl | hx3
          · simp [hpo]
          · exact absurd hx3 (List.not_mem_nil x)
      obtain ⟨c, hrun, hfm3⟩ := ih o (A ++ [o])
        (fun x hx => hos x (by simp [hx])) hA2 hfm2
      refine ⟨c, hrun, ?_⟩
      rw [show A ++ o :: rest = (A ++ [o]) ++ rest by simp]
      exact hfm3
    · rw [if_neg (fun hc => hlt (hkiff.mp hc))]
      have hfm2 : IsFirstMin (A ++ [o]) cur := by
        obtain ⟨l1, l2, hsplit, h1, h2⟩ := hfm
        refine ⟨l1, l2 ++ [o], by rw [hsplit]; simp, h1, ?_⟩
        intro x hx
        rcases List.mem_append.mp hx with hx1 | hx2
        · exact h2 x hx1
        · rcases List.mem_cons.mp hx2 with rfl | hx3
          · exact not_lt.mp hlt
          · exact absurd hx3 (List.not_mem_nil x)
      have hA2 : AllParse (A ++ [o]) := by
        intro x hx
        rcases List.mem_append.mp hx with hx1 | hx2
        · exact hA x hx1
        · rcases List.mem_cons.mp hx2 with rfl | hx3
          · simp [hpo]
          · exact absurd hx3 (List.not_mem_nil x)
      obtain ⟨c, hrun, hfm3⟩ := ih cur (A ++ [o])
        (fun x hx => hos x (by simp [hx])) hA2 hfm2
      refine ⟨c, hrun, ?_⟩
      rw [show A ++ o :: rest = (A ++ [o]) ++ rest by simp]
      exact hfm3

/-- `min` over a nonempty all-parsed date list returns its first
minimum: the first offer attaining the minimal price. -/
theorem pyMinBy_isFirstMin (o : Offer) (os : List Offer)
    (h : ∀ x ∈ o :: os, (priceOf x).isSome) :
    ∃ c, pyMinBy o os = .ok c ∧ IsFirstMin (o :: os) c := by
  have hpo : priceOf o = some (pv o) := priceOf_eq_pv o (h o (by simp))
  have hko := minPriceKey_of_priceOf o (pv o) hpo
  have hfm : IsFirstMin [o] o := ⟨[], [], rfl, by simp, by simp⟩
  have hA : AllParse [o] := by
    intro x hx
    rcases List.mem_cons.mp hx with rfl | hx2
    · exact h x (by simp)
    · exact absurd hx2 (List.not_mem_nil x)
  obtain ⟨c, hrun, hfm2⟩ := pyMinByAux_isFirstMin os o [o]
    (fun x hx => h x (by simp [hx])) hA hfm
  refine ⟨c, ?_, by simpa using hfm2⟩
  simp only [pyMinBy, hko]
  exact hrun

/-- Combining the first minimum of the already-scanned offers with the
first minimum of a new date's offers by strict comparison (incumbent
wins ties) yields the first minimum of the concatenation. -/
theorem isFirstMin_combine (A L : List Offer) (a c : Offer)
    (hA : IsFirstMin A a) (hL : IsFirstMin L c) :
    IsFirstMin (A ++ L) (if pv c < pv a then c else a) := by
  obtain ⟨a1, a2, hAs, ha1, ha2⟩ := hA
  obtain ⟨l1, l2, hLs, hl1, hl2⟩ := hL
  by_cases hcmp : pv c < pv a
  · rw [if_pos hcmp]
    refine ⟨A ++ l1, l2, by rw [hLs]; simp, ?_, hl2⟩
    intro x hx
    rcases List.mem_append.mp hx with hx1 | hx2
    · rw [hAs] at hx1
      rcases List.mem_append.mp hx1 with h1 | h1
      · exact lt_trans hcmp (ha1 x h1)
      · rcases List.mem_cons.mp h1 with rfl | h2
        · exact hcmp
        · exact lt_of_lt_of_le hcmp (ha2 x h2)
    · exact hl1 x hx2
  · rw [if_neg hcmp]
    refine ⟨a1, a2 ++ L, by rw [hAs]; simp, ha1, ?_⟩
    intro x hx
    rcases List.mem_append.mp hx with hx1 | hx2
    · exact ha2 x hx1
    · rw [hLs] at hx2
      rcases List.mem_append.mp hx2 with h1 | h1
      · exact le_trans (not_lt.mp hcmp) (le_of_lt (hl1 x h1))
      · rcases List.mem_cons.mp h1 with rfl | h2
        · exact not_lt.mp hcmp
        · exact le_trans (not_lt.mp hcmp) (hl2 x h2)

/-- Invariant of the aggregation loop for the overall holder: with all
considered prices parsed, the scan succeeds and
`overall_cheapest_offer` is always the first minimum of the offers
scanned so far (strictly-less-than updates keep the first on ties). -/
theorem scanAux_overall_firstmin :
    ∀ (probes : List (String × List Offer)) (A : List Offer)
      (ov : Option Offer) (bm : List (String × Offer)),
    (∀ pr ∈ probes, ∀ x ∈ pr.2, (priceOf x).isSome) →
    AllParse A →
    ((A = [] ∧ ov = none) ∨ ∃ a, ov = some a ∧ IsFirstMin A a) →
    (∀ e ∈ bm, (priceOf e.2).isSome) →
    ∃ bm2 ov2, scanAux probes ov bm = .ok (bm2, ov2) ∧
      ((A ++ considered probes = [] ∧ ov2 = none) ∨
        ∃ c, ov2 = some c ∧ IsFirstMin (A ++ considered probes) c) := by
  intro probes
  induction probes with
  | nil =>
    intro A ov bm hpr hA hinv hbm
    refine ⟨bm, ov, rfl, ?_⟩
    simpa [considered] using hinv
  | cons pr rest ih =>
    obtain ⟨mk0, l⟩ := pr
    intro A ov bm hpr hA hinv hbm
    have hcons : considered ((mk0, l) :: rest) = l ++ considered rest := by
      simp [considered]
    cases l with
    | nil =>
      simp only [scanAux]
      obtain ⟨bm2, ov2, hrun, hres⟩ :=
        ih A ov bm (fun pr2 h2 => hpr pr2 (by simp [h2])) hA hinv hbm
      refine ⟨bm2, ov2, hrun, ?_⟩
      rw [hcons]
      simpa using hres
    | cons o os =>
      have hl : ∀ x ∈ o :: os, (priceOf x).isSome := by
        intro x hx
        exact hpr (mk0, o :: os) (by simp) x hx
      obtain ⟨c, hmin, hfml⟩ := pyMinBy_isFirstMin o os hl
      have hpc : priceOf c = some (pv c) :=
        priceOf_eq_pv c (hl c (IsFirstMin_mem _ c hfml))
      have hov : ∀ a2, ov = some a2 → (priceOf a2).isSome := by
        intro a2 ha2
        rcases hinv with ⟨_, h2⟩ | ⟨a, h2, hfm⟩
        · rw [h2] at ha2
          exact absurd ha2 (by simp)
        · rw [h2] at ha2
          injection ha2 with h3
          subst h3
          exact hA a (IsFirstMin_mem A a hfm)
      obtain ⟨ov2, bm2x, htb, hovup, hbmup⟩ := tryBody_step c mk0 ov bm (pv c) hpc hov
      simp only [scanAux, hmin, htb]
      have hA2 : AllParse (A ++ (o :: os)) := by
        intro x hx
        rcases List.mem_append.mp hx with h1 | h1
        · exact hA x h1
        · exact hl x h1
      have hinv2 : ((A ++ (o :: os)) = [] ∧ ov2 = none) ∨
          ∃ a, ov2 = some a ∧ IsFirstMin (A ++ (o :: os)) a := by
        rcases hovup with ⟨hovn, hov2⟩ | ⟨a, pa, hova, hpa, hov2⟩
        · rcases hinv with ⟨hAe, _⟩ | ⟨a, h2, _⟩
          · right
            refine ⟨c, hov2, ?_⟩
            rw [hAe]
            simpa using hfml
          · rw [hovn] at h2
            exact absurd h2.symm (by simp)
        · rcases hinv with ⟨_, hovn⟩ | ⟨a2, h2, hfmA⟩
          · rw [hovn] at hova
            exact absurd hova (by simp)
          · rw [h2] at hova
            injection hova with h3
            subst h3
            have hpaeq : pa = pv a2 := by
              rw [priceOf_eq_pv a2 (hA a2 (IsFirstMin_mem A a2 hfmA))] at hpa
              injection hpa with h4
              exact h4.symm
            right
            refine ⟨if pv c < pv a2 then c else a2, ?_,
              isFirstMin_combine A (o :: os) a2 c hfmA hfml⟩
            rw [hov2, hpaeq]
            by_cases hsplit2 : pv c < pv a2
            · simp [hsplit2]
            · simp [hsplit2]
      have hbmcases : bm2x = setMonth bm mk0 c ∨ bm2x = bm := by
        rcases hbmup with ⟨_, h2⟩ | ⟨cur, _, _, h2⟩ | ⟨cur, pcur, _, _, h2⟩
        · exact Or.inl h2
        · exact Or.inr h2
        · by_cases hcmp : pv c < pcur
          · exact Or.inl (by rw [h2, if_pos hcmp])
          · exact Or.inr (by rw [h2, if_neg hcmp])
      have hbm2 : ∀ e ∈ bm2x, (priceOf e.2).isSome := by
        rcases hbmcases with h2 | h2
        · intro e he
          rw [h2] at he
          rcases mem_setMonth bm mk0 c e he with h3 | h3
          · rw [h3]
            simp [hpc]
          · exact hbm e h3
        · intro e he
          rw [h2] at he
          exact hbm e he
      obtain ⟨bm3, ov3, hrun, hres⟩ := ih (A ++ (o :: os)) ov2 bm2x
        (fun pr2 h2 => hpr pr2 (by simp [h2])) hA2 hinv2 hbm2
      refine ⟨bm3, ov3, hrun, ?_⟩
      rw [hcons, show A ++ ((o :: os) ++ considered rest) =
        (A ++ (o :: os)) ++ considered rest by simp]
      exact hres

/-- **C6**: with every considered offer's price parsing, the scan
completes and the returned overall-cheapest offer is the first offer in
encounter order whose price equals the minimum: every earlier offer is
strictly more expensive (so an equal price never replaces the holder)
and every later offer is at least as expensive. -/
theorem C6_overall_cheapest_first_min (probes : List (String × List Offer))
    (h : ∀ pr ∈ probes, ∀ x ∈ pr.2, (priceOf x).isSome) :
    ∃ bm ov, scanMonths probes = .ok (bm, ov) ∧
      ((considered probes = [] ∧ ov = none) ∨
        ∃ c, ov = some c ∧ IsFirstMin (considered probes) c) := by
  obtain ⟨bm, ov, hrun, hres⟩ := scanAux_overall_firstmin probes [] none [] h
    (fun x hx => absurd hx (List.not_mem_nil x))
    (Or.inl ⟨rfl, rfl⟩)
    (fun e he => absurd he (List.not_mem_nil e))
  exact ⟨bm, ov, hrun, by simpa using hres⟩

theorem C6_overall_cheapest_witness :
    ∃ bm ov, scanMonths [("2026-01", [(⟨none, some "120"⟩ : Offer), ⟨none, some "95"⟩]),
        ("2026-02", [(⟨none, some "95.0"⟩ : Offer), ⟨none, some "130"⟩])] = .ok (bm, ov) ∧
      ((considered [("2026-01", [(⟨none, some "120"⟩ : Offer), ⟨none, some "95"⟩]),
          ("2026-02", [(⟨none, some "95.0"⟩ : Offer), ⟨none, some "130"⟩])] = [] ∧ ov = none) ∨
        ∃ c, ov = some c ∧
          IsFirstMin (considered [("2026-01", [(⟨none, some "120"⟩ : Offer), ⟨none, some "95"⟩]),
            ("2026-02", [(⟨none, some "95.0"⟩ : Offer), ⟨none, some "130"⟩])]) c) :=
  C6_overall_cheapest_first_min
    [("2026-01", [⟨none, some "120"⟩, ⟨none, some "95"⟩]),
     ("2026-02", [⟨none, some "95.0"⟩, ⟨none, some "130"⟩])] (by decide)
